import Mathlib

/-!
Shallow embedding of the sbrk-based memory allocator in `mal.c` and proofs of
the specified properties of its operations.

Modelling conventions:
* Addresses and byte values are natural numbers.
* The block headers that live in memory are modelled as an association list
  from header address to header record (`Heap`); the intrusive `next` pointer
  of a header is the address of the next header, `none` standing for `NULL`.
* The mutable globals `head`, `tail`, the program break returned by `sbrk(0)`
  and the payload bytes form a `State`.  `sbrk` growth either succeeds or
  fails; whether the OS grants the request is an explicit boolean parameter
  of the operations that may grow the region.
* The C `while` loops are written with an explicit fuel argument (the number
  of heap entries bounds every terminating traversal); behaviour that is
  undefined in C (dereferencing an address that holds no header) makes the
  modelled operation leave the state unchanged.
* `size_t` arithmetic is modelled on `Nat`; the one place where the source
  relies on wrap-around (the overflow check in `calloc`) takes the product
  modulo `2 ^ sizeTWidth` exactly as the machine does.
-/

set_option maxHeartbeats 1000000

namespace Mal

/-- Metadata record of `union header` in `mal.c`: payload byte count, free
flag and forward link (address of the next header, `none` for `NULL`). -/
structure Header where
  size : Nat
  is_free : Bool
  next : Option Nat
deriving DecidableEq

/-- The collection of headers currently present in memory, as an association
list from header address to header contents. -/
abbrev Heap := List (Nat × Header)

/-- Reading the header stored at address `a`. -/
def lookupH : Heap → Nat → Option Header
  | [], _ => none
  | q :: hp, a => if q.1 = a then some q.2 else lookupH hp a

/-- Overwriting the header stored at address `a` (no effect if absent). -/
def updateH : Heap → Nat → Header → Heap
  | [], _, _ => []
  | q :: hp, a, h => if q.1 = a then (a, h) :: updateH hp a h else q :: updateH hp a h

/-- Discarding the header stored at address `a` (the bytes holding it have
been released to the OS by a negative `sbrk`). -/
def removeH : Heap → Nat → Heap
  | [], _ => []
  | q :: hp, a => if q.1 = a then removeH hp a else q :: removeH hp a

/-- Assignment `header->s.is_free = b`, leaving size and link untouched. -/
def setFlag (hp : Heap) (a : Nat) (b : Bool) : Heap :=
  match lookupH hp a with
  | some h => updateH hp a ⟨h.size, b, h.next⟩
  | none => hp

/-- Assignment `header->s.next = v`, leaving size and flag untouched. -/
def setNext (hp : Heap) (a : Nat) (v : Option Nat) : Heap :=
  match lookupH hp a with
  | some h => updateH hp a ⟨h.size, h.is_free, v⟩
  | none => hp

/-- Value of `sizeof(header_t)` under the LP64 ABI: the anonymous struct occupies
8 (size_t) + 4 (unsigned) + 4 (padding) + 8 (pointer) = 24 bytes, which also
dominates the 16-byte `stub` member of the union. -/
def headerSize : Nat := 24

/-- Bit width of `size_t` on the target platform. -/
def sizeTWidth : Nat := 64

/-- Allocator state: headers in memory, the globals `head` and `tail`, the
current program break, and the payload bytes. -/
structure State where
  heap : Heap
  head : Option Nat
  tail : Option Nat
  brk : Nat
  mem : Nat → Nat

/-- Effect of `memset(p, v, n)` on the byte memory. -/
def memset (m : Nat → Nat) (p v n : Nat) : Nat → Nat :=
  fun x => if p ≤ x ∧ x < p + n then v else m x

/-- Effect of `memcpy(dst, src, n)` on the byte memory. -/
def memcpy (m : Nat → Nat) (dst src n : Nat) : Nat → Nat :=
  fun x => if dst ≤ x ∧ x < dst + n then m (src + (x - dst)) else m x

/-- The `while(curr)` loop of `get_free_block`: follow `next` links looking
for the first header with `is_free` set and a sufficient recorded size. -/
def gfbLoop (hp : Heap) : Nat → Option Nat → Nat → Option Nat
  | 0, _, _ => none
  | _ + 1, none, _ => none
  | fuel + 1, some curr, sz =>
    match lookupH hp curr with
    | none => none
    | some h =>
      if h.is_free = true ∧ sz ≤ h.size then some curr else gfbLoop hp fuel h.next sz

/-- Function `get_free_block(size)`: first-fit scan from `head`. -/
def get_free_block (s : State) (sz : Nat) : Option Nat :=
  gfbLoop s.heap s.heap.length s.head sz

/-- The growth branch of `malloc`: `sbrk(sizeof(header_t) + size)` succeeded,
so a fresh header is written at the old break, linked after `tail` (and made
`head` if the list was empty), and the break moves up. -/
def growAppend (s : State) (n : Nat) : State :=
  { heap :=
      match s.tail with
      | some t => setNext ((s.brk, ⟨n, false, none⟩) :: s.heap) t (some s.brk)
      | none => (s.brk, ⟨n, false, none⟩) :: s.heap
    head :=
      match s.head with
      | none => some s.brk
      | some x => some x
    tail := some s.brk
    brk := s.brk + (headerSize + n)
    mem := s.mem }

/-- Function `malloc(size)`.  The `ok` flag tells whether the OS grants the `sbrk`
growth request, should one be made.  Note the reuse branch: the source marks
the found block in-use and then returns `NULL` instead of the payload. -/
def malloc (ok : Bool) (s : State) (n : Nat) : State × Option Nat :=
  if n = 0 then (s, none)
  else
    match get_free_block s n with
    | some a => ({ s with heap := setFlag s.heap a false }, none)
    | none =>
      if ok then (growAppend s n, some (s.brk + headerSize))
      else (s, none)

/-- The `while(tmp)` loop in `free` that finds the predecessor of `tail`:
the first node whose `next` equals `tail` gets its link cleared and becomes
the new `tail`; the walk then continues from the (now cleared) link. -/
def delTailLoop : Nat → Heap → Option Nat → Option Nat → Heap × Option Nat
  | 0, hp, _, tl => (hp, tl)
  | _ + 1, hp, none, tl => (hp, tl)
  | fuel + 1, hp, some b, tl =>
    match lookupH hp b with
    | none => (hp, tl)
    | some h =>
      if h.next = tl then
        delTailLoop fuel (updateH hp b ⟨h.size, h.is_free, none⟩) none (some b)
      else
        delTailLoop fuel hp h.next tl

/-- Function `free(block)`.  If the payload ends at the current break the block is
unlinked and the break shrinks by `sizeof(header_t) + size`; otherwise the
block is only marked free. -/
def free (s : State) (block : Option Nat) : State :=
  match block with
  | none => s
  | some p =>
    match lookupH s.heap (p - headerSize) with
    | none => s
    | some h =>
      if p + h.size = s.brk then
        if s.head = s.tail then
          { s with head := none, tail := none,
                   heap := removeH s.heap (p - headerSize),
                   brk := s.brk - (h.size + headerSize) }
        else
          { s with heap := removeH (delTailLoop s.heap.length s.heap s.head s.tail).1
                             (p - headerSize),
                   tail := (delTailLoop s.heap.length s.heap s.head s.tail).2,
                   brk := s.brk - (h.size + headerSize) }
      else
        { s with heap := setFlag s.heap (p - headerSize) true }

/-- Function `calloc(num, nsize)`: zero guard, multiplication-overflow guard on
`size_t` arithmetic, then `malloc` followed by `memset(block, 0, size)`. -/
def calloc (ok : Bool) (s : State) (num nsize : Nat) : State × Option Nat :=
  if num = 0 ∨ nsize = 0 then (s, none)
  else
    if nsize ≠ num * nsize % 2 ^ sizeTWidth / num then (s, none)
    else
      match malloc ok s (num * nsize % 2 ^ sizeTWidth) with
      | (s1, none) => (s1, none)
      | (s1, some b) =>
        ({ s1 with mem := memset s1.mem b 0 (num * nsize % 2 ^ sizeTWidth) }, some b)

/-- Function `realloc(block, size)`: delegate to `malloc` for a null block or zero
size; return the block unchanged when its recorded size already suffices;
otherwise `malloc`, `memcpy` the old payload, `free` the old block. -/
def realloc (ok : Bool) (s : State) (block : Option Nat) (sz : Nat) : State × Option Nat :=
  match block with
  | none => malloc ok s sz
  | some p =>
    if sz = 0 then malloc ok s sz
    else
      match lookupH s.heap (p - headerSize) with
      | none => (s, none)
      | some h =>
        if sz ≤ h.size then (s, some p)
        else
          match malloc ok s sz with
          | (s1, none) => (s1, none)
          | (s1, some q) =>
            (free { s1 with mem := memcpy s1.mem q p h.size } (some p), some q)

/-- One public API call, with the OS growth verdict for the calls that may
ask for more memory. -/
inductive Op where
  | alloc : Bool → Nat → Op
  | zalloc : Bool → Nat → Nat → Op
  | re : Bool → Option Nat → Nat → Op
  | dealloc : Option Nat → Op

/-- Effect of one call on the allocator state. -/
def step (s : State) : Op → State
  | Op.alloc ok n => (malloc ok s n).1
  | Op.zalloc ok a b => (calloc ok s a b).1
  | Op.re ok p n => (realloc ok s p n).1
  | Op.dealloc p => free s p

/-- Running a sequence of calls. -/
def run (s : State) (ops : List Op) : State :=
  ops.foldl step s

/-- The empty allocator: no blocks, break at the managed base. -/
def init (base : Nat) (m : Nat → Nat) : State :=
  { heap := [], head := none, tail := none, brk := base, mem := m }

/-- A concrete initial memory, byte at address `n` reads `n % 256`. -/
def mem0 : Nat → Nat := fun n => n % 256

/-- Concrete initial state used by the witnesses. -/
def s0 : State := init 0 mem0

/-- One in-use block of size 20 at address 0 (payload handle 24, break 44). -/
def sOne : State := run s0 [Op.alloc true 20]

/-- Two in-use blocks: size 20 at address 0 and size 12 at address 44. -/
def sTwo : State := run s0 [Op.alloc true 20, Op.alloc true 12]

/-- Same two blocks after `free` of the first handle: the low block is free
(size 20), the high block is still in use. -/
def sFree : State := run s0 [Op.alloc true 20, Op.alloc true 12, Op.dealloc (some 24)]

/-- Following `next` links from a pointer visits exactly this list of header
addresses and ends at `NULL`. -/
inductive IsChain (hp : Heap) : Option Nat → List Nat → Prop
  | nil : IsChain hp none []
  | cons {a : Nat} {h : Header} {l : List Nat} :
      lookupH hp a = some h → IsChain hp h.next l → IsChain hp (some a) (a :: l)

/-- The listed blocks tile the address range from `base` to `top` without
gaps: each block starts where the previous one ended and the last one ends
at `top`. -/
def Tiles (hp : Heap) : List Nat → Nat → Nat → Prop
  | [], base, top => base = top
  | a :: l, base, top =>
      a = base ∧ ∃ h, lookupH hp a = some h ∧ Tiles hp l (base + headerSize + h.size) top

/-- Well-formedness of a state with respect to a given chain of block
addresses: the chain is what `next` traversal from `head` yields, `tail` is
its last element, every header in memory is on the chain, and the blocks
tile the region up to the current break. -/
structure WfC (s : State) (c : List Nat) : Prop where
  chain_ok : IsChain s.heap s.head c
  tail_ok : s.tail = c.getLast?
  dom_sub : ∀ n h, lookupH s.heap n = some h → n ∈ c
  tiles : ∃ base, Tiles s.heap c base s.brk

/-- A state is well formed when some chain witnesses `WfC`. -/
def Wf (s : State) : Prop := ∃ c, WfC s c

theorem lookupH_update_self (hp : Heap) (a : Nat) (h : Header) :
    lookupH (updateH hp a h) a = (lookupH hp a).map (fun _ => h) := by
  induction hp with
  | nil => rfl
  | cons q hp ih =>
    by_cases hq : q.1 = a
    · simp [updateH, lookupH, hq]
    · simp [updateH, lookupH, hq, ih]

theorem lookupH_update_other (hp : Heap) (a b : Nat) (h : Header) (hne : b ≠ a) :
    lookupH (updateH hp a h) b = lookupH hp b := by
  induction hp with
  | nil => rfl
  | cons q hp ih =>
    by_cases hq : q.1 = a
    · simp [updateH, lookupH, hq, Ne.symm hne, ih]
    · simp only [updateH, if_neg hq, lookupH, ih]

theorem lookupH_remove_self (hp : Heap) (a : Nat) :
    lookupH (removeH hp a) a = none := by
  induction hp with
  | nil => rfl
  | cons q hp ih =>
    by_cases hq : q.1 = a
    · simp [removeH, hq, ih]
    · simp [removeH, lookupH, hq, ih]

theorem lookupH_remove_other (hp : Heap) (a b : Nat) (hne : b ≠ a) :
    lookupH (removeH hp a) b = lookupH hp b := by
  induction hp with
  | nil => rfl
  | cons q hp ih =>
    by_cases hq : q.1 = a
    · simp [removeH, lookupH, hq, Ne.symm hne, ih]
    · simp only [removeH, if_neg hq, lookupH, ih]

theorem length_updateH (hp : Heap) (a : Nat) (h : Header) :
    (updateH hp a h).length = hp.length := by
  induction hp with
  | nil => rfl
  | cons q hp ih =>
    by_cases hq : q.1 = a
    · simp [updateH, hq, ih]
    · simp [updateH, hq, ih]

theorem lookupH_setFlag_self (hp : Heap) (a : Nat) (b : Bool) :
    lookupH (setFlag hp a b) a = (lookupH hp a).map (fun h => ⟨h.size, b, h.next⟩) := by
  unfold setFlag
  cases hl : lookupH hp a with
  | none => simp [hl]
  | some h => simp [lookupH_update_self, hl]

theorem lookupH_setFlag_other (hp : Heap) (a c : Nat) (b : Bool) (hne : c ≠ a) :
    lookupH (setFlag hp a b) c = lookupH hp c := by
  unfold setFlag
  cases hl : lookupH hp a with
  | none => rfl
  | some h => simp [lookupH_update_other _ _ _ _ hne]

theorem setFlag_next (hp : Heap) (a : Nat) (b : Bool) (c : Nat) :
    (lookupH (setFlag hp a b) c).map Header.next = (lookupH hp c).map Header.next := by
  by_cases hc : c = a
  · subst hc
    rw [lookupH_setFlag_self]
    cases lookupH hp c <;> rfl
  · rw [lookupH_setFlag_other _ _ _ _ hc]

theorem setFlag_size (hp : Heap) (a : Nat) (b : Bool) (c : Nat) :
    (lookupH (setFlag hp a b) c).map Header.size = (lookupH hp c).map Header.size := by
  by_cases hc : c = a
  · subst hc
    rw [lookupH_setFlag_self]
    cases lookupH hp c <;> rfl
  · rw [lookupH_setFlag_other _ _ _ _ hc]

theorem length_setFlag (hp : Heap) (a : Nat) (b : Bool) :
    (setFlag hp a b).length = hp.length := by
  unfold setFlag
  cases lookupH hp a with
  | none => rfl
  | some h => exact length_updateH _ _ _

theorem lookupH_setNext_self (hp : Heap) (a : Nat) (v : Option Nat) :
    lookupH (setNext hp a v) a = (lookupH hp a).map (fun h => ⟨h.size, h.is_free, v⟩) := by
  unfold setNext
  cases hl : lookupH hp a with
  | none => simp [hl]
  | some h => simp [lookupH_update_self, hl]

theorem lookupH_setNext_other (hp : Heap) (a c : Nat) (v : Option Nat) (hne : c ≠ a) :
    lookupH (setNext hp a v) c = lookupH hp c := by
  unfold setNext
  cases hl : lookupH hp a with
  | none => rfl
  | some h => simp [lookupH_update_other _ _ _ _ hne]

theorem setNext_size (hp : Heap) (a : Nat) (v : Option Nat) (c : Nat) :
    (lookupH (setNext hp a v) c).map Header.size = (lookupH hp c).map Header.size := by
  by_cases hc : c = a
  · subst hc
    rw [lookupH_setNext_self]
    cases lookupH hp c <;> rfl
  · rw [lookupH_setNext_other _ _ _ _ hc]

theorem lookupH_mem_keys (hp : Heap) (b : Nat) (h : Header) (hl : lookupH hp b = some h) :
    b ∈ hp.map Prod.fst := by
  induction hp with
  | nil => simp [lookupH] at hl
  | cons q hp ih =>
    by_cases hq : q.1 = b
    · simp [hq]
    · simp only [lookupH, if_neg hq] at hl
      simp [ih hl]

theorem isChain_head {hp : Heap} {p : Option Nat} {a : Nat} {l : List Nat}
    (hc : IsChain hp p (a :: l)) : p = some a := by
  cases hc; rfl

theorem isChain_none {hp : Heap} {c : List Nat} (hc : IsChain hp none c) : c = [] := by
  cases hc; rfl

theorem isChain_nil_inv {hp : Heap} {p : Option Nat} (hc : IsChain hp p []) : p = none := by
  cases hc; rfl

theorem isChain_lookup {hp : Heap} :
    ∀ {c : List Nat} {p : Option Nat}, IsChain hp p c →
      ∀ b ∈ c, ∃ h, lookupH hp b = some h := by
  intro c
  induction c with
  | nil => intro p _ b hb; simp at hb
  | cons x l ih =>
    intro p hc b hb
    cases hc with
    | cons hl hr =>
      rcases List.mem_cons.mp hb with hbx | hbl
      · exact ⟨_, hbx ▸ hl⟩
      · exact ih hr b hbl

theorem isChain_congr {hp hp' : Heap} :
    ∀ {c : List Nat} {p : Option Nat}, IsChain hp p c →
      (∀ b ∈ c, (lookupH hp' b).map Header.next = (lookupH hp b).map Header.next) →
      IsChain hp' p c := by
  intro c
  induction c with
  | nil => intro p hc _; cases hc; exact IsChain.nil
  | cons x l ih =>
    intro p hc H
    cases hc with
    | cons hl hr =>
      have hx := H x (by simp)
      rw [hl] at hx
      cases hl' : lookupH hp' x with
      | none => rw [hl'] at hx; simp at hx
      | some h' =>
        rw [hl'] at hx
        have hnx : h'.next = _ := Option.some.inj hx
        exact IsChain.cons hl' (by
          rw [hnx]
          exact ih hr (fun b hb => H b (List.mem_cons_of_mem _ hb)))

theorem isChain_last_next {hp : Heap} :
    ∀ {l : List Nat} {p : Option Nat} {a : Nat}, IsChain hp p (l ++ [a]) →
      ∀ h, lookupH hp a = some h → h.next = none := by
  intro l
  induction l with
  | nil =>
    intro p a hc h hl
    cases hc with
    | cons hl0 hr =>
      have : h = _ := Option.some.inj (hl.symm.trans hl0)
      rw [this]
      exact isChain_nil_inv hr
  | cons x l ih =>
    intro p a hc h hl
    cases hc with
    | cons hl0 hr => exact ih hr h hl

theorem tiles_le {hp : Heap} :
    ∀ {c : List Nat} {base top : Nat}, Tiles hp c base top → base ≤ top := by
  intro c
  induction c with
  | nil => intro base top ht; exact Nat.le_of_eq ht
  | cons x l ih =>
    intro base top ht
    obtain ⟨hx, h, hl, hrest⟩ := ht
    have := ih hrest
    omega

theorem tiles_mem_ge {hp : Heap} :
    ∀ {c : List Nat} {base top : Nat}, Tiles hp c base top → ∀ b ∈ c, base ≤ b := by
  intro c
  induction c with
  | nil => intro base top _ b hb; simp at hb
  | cons x l ih =>
    intro base top ht b hb
    obtain ⟨hx, h, hl, hrest⟩ := ht
    rcases List.mem_cons.mp hb with hbx | hbl
    · omega
    · have := ih hrest b hbl
      omega

theorem tiles_mem_end_le {hp : Heap} :
    ∀ {c : List Nat} {base top : Nat}, Tiles hp c base top →
      ∀ a ∈ c, ∀ h, lookupH hp a = some h → a + headerSize + h.size ≤ top := by
  intro c
  induction c with
  | nil => intro base top _ a ha; simp at ha
  | cons x l ih =>
    intro base top ht a ha h hl
    obtain ⟨hx, hxh, hlx, hrest⟩ := ht
    rcases List.mem_cons.mp ha with hax | hal
    · subst hax
      have : h = hxh := Option.some.inj (hl.symm.trans hlx)
      subst this
      have := tiles_le hrest
      omega
    · exact ih hrest a hal h hl

theorem tiles_pairwise {hp : Heap} :
    ∀ {c : List Nat} {base top : Nat}, Tiles hp c base top → c.Pairwise (· < ·) := by
  intro c
  induction c with
  | nil => intro base top _; exact List.Pairwise.nil
  | cons x l ih =>
    intro base top ht
    obtain ⟨hx, h, hl, hrest⟩ := ht
    refine List.Pairwise.cons ?_ (ih hrest)
    intro b hb
    have := tiles_mem_ge hrest b hb
    have hpos : 0 < headerSize := by norm_num [headerSize]
    omega

theorem tiles_nodup {hp : Heap} {c : List Nat} {base top : Nat}
    (ht : Tiles hp c base top) : c.Nodup :=
  (tiles_pairwise ht).imp (fun hab => Nat.ne_of_lt hab)

theorem tiles_congr {hp hp' : Heap} :
    ∀ {c : List Nat} {base top : Nat}, Tiles hp c base top →
      (∀ b ∈ c, (lookupH hp' b).map Header.size = (lookupH hp b).map Header.size) →
      Tiles hp' c base top := by
  intro c
  induction c with
  | nil => intro base top ht _; exact ht
  | cons x l ih =>
    intro base top ht H
    obtain ⟨hx, h, hl, hrest⟩ := ht
    have hx' := H x (by simp)
    rw [hl] at hx'
    cases hl' : lookupH hp' x with
    | none => rw [hl'] at hx'; simp at hx'
    | some h' =>
      rw [hl'] at hx'
      have hsz : h'.size = h.size := Option.some.inj hx'
      refine ⟨hx, h', hl', ?_⟩
      have := ih hrest (fun b hb => H b (List.mem_cons_of_mem _ hb))
      rwa [hsz]

theorem tiles_append_split {hp : Heap} :
    ∀ {l₁ l₂ : List Nat} {base top : Nat}, Tiles hp (l₁ ++ l₂) base top →
      ∃ mid, Tiles hp l₁ base mid ∧ Tiles hp l₂ mid top := by
  intro l₁
  induction l₁ with
  | nil => intro l₂ base top ht; exact ⟨base, rfl, ht⟩
  | cons x l ih =>
    intro l₂ base top ht
    obtain ⟨hx, h, hl, hrest⟩ := ht
    obtain ⟨mid, h₁, h₂⟩ := ih hrest
    exact ⟨mid, ⟨hx, h, hl, h₁⟩, h₂⟩

theorem tiles_append {hp : Heap} :
    ∀ {l₁ l₂ : List Nat} {base mid top : Nat}, Tiles hp l₁ base mid →
      Tiles hp l₂ mid top → Tiles hp (l₁ ++ l₂) base top := by
  intro l₁
  induction l₁ with
  | nil =>
    intro l₂ base mid top h₁ h₂
    have : base = mid := h₁
    simpa [this] using h₂
  | cons x l ih =>
    intro l₂ base mid top h₁ h₂
    obtain ⟨hx, h, hl, hrest⟩ := h₁
    exact ⟨hx, h, hl, ih hrest h₂⟩

theorem tiles_last {hp : Heap} :
    ∀ {c : List Nat} {base top a : Nat} {h : Header}, Tiles hp c base top →
      a ∈ c → lookupH hp a = some h → a + headerSize + h.size = top →
      ∃ c₀, c = c₀ ++ [a] := by
  intro c
  induction c with
  | nil => intro base top a h _ ha; simp at ha
  | cons x l ih =>
    intro base top a h ht ha hl hend
    obtain ⟨hx, hxh, hlx, hrest⟩ := ht
    rcases List.mem_cons.mp ha with hax | hal
    · subst hax
      have heq : h = hxh := Option.some.inj (hl.symm.trans hlx)
      subst heq
      cases l with
      | nil => exact ⟨[], rfl⟩
      | cons y l' =>
        exfalso
        obtain ⟨hy, hyh, hly, hrest'⟩ := hrest
        have := tiles_le hrest'
        have hpos : 0 < headerSize := by norm_num [headerSize]
        omega
    · obtain ⟨c₀, hc₀⟩ := ih hrest hal hl hend
      exact ⟨x :: c₀, by rw [hc₀]; rfl⟩

theorem chain_length_le {hp : Heap} {p : Option Nat} {c : List Nat}
    (hc : IsChain hp p c) (hnd : c.Nodup) : c.length ≤ hp.length := by
  have hsub : c ⊆ hp.map Prod.fst := by
    intro b hb
    obtain ⟨h, hl⟩ := isChain_lookup hc b hb
    exact lookupH_mem_keys hp b h hl
  have := (hnd.subperm hsub).length_le
  simpa using this

theorem gfbLoop_some {hp : Heap} {sz a : Nat} :
    ∀ {fuel : Nat} {p : Option Nat}, gfbLoop hp fuel p sz = some a →
      ∃ h, lookupH hp a = some h ∧ h.is_free = true ∧ sz ≤ h.size := by
  intro fuel
  induction fuel with
  | zero => intro p hg; simp [gfbLoop] at hg
  | succ fuel ih =>
    intro p hg
    cases p with
    | none => simp [gfbLoop] at hg
    | some curr =>
      rw [gfbLoop] at hg
      cases hl : lookupH hp curr with
      | none => rw [hl] at hg; simp at hg
      | some h =>
        rw [hl] at hg
        have hg' : (if h.is_free = true ∧ sz ≤ h.size then some curr
            else gfbLoop hp fuel h.next sz) = some a := hg
        by_cases hcond : h.is_free = true ∧ sz ≤ h.size
        · rw [if_pos hcond] at hg'
          have : curr = a := Option.some.inj hg'
          subst this
          exact ⟨h, hl, hcond⟩
        · rw [if_neg hcond] at hg'
          exact ih hg'

theorem delTailLoop_none (fuel : Nat) (hp : Heap) (tl : Option Nat) :
    delTailLoop fuel hp none tl = (hp, tl) := by
  cases fuel <;> rfl

theorem lookupH_cons_self (k : Nat) (h : Header) (hp : Heap) :
    lookupH ((k, h) :: hp) k = some h := by
  simp [lookupH]

theorem lookupH_cons_other (k b : Nat) (h : Header) (hp : Heap) (hne : k ≠ b) :
    lookupH ((k, h) :: hp) b = lookupH hp b := by
  simp [lookupH, hne]

theorem delTailLoop_cons (fuel : Nat) (hp : Heap) (b : Nat) (tl : Option Nat)
    (h : Header) (hl : lookupH hp b = some h) :
    delTailLoop (fuel + 1) hp (some b) tl =
      if h.next = tl then
        delTailLoop fuel (updateH hp b ⟨h.size, h.is_free, none⟩) none (some b)
      else delTailLoop fuel hp h.next tl := by
  rw [delTailLoop, hl]

theorem delTailLoop_spec {hp : Heap} :
    ∀ (l : List Nat) (fuel : Nat) {p : Option Nat} {pred a : Nat} {hpr : Header},
      IsChain hp p (l ++ [pred, a]) → a ∉ l → a ≠ pred →
      lookupH hp pred = some hpr → l.length + 1 ≤ fuel →
      delTailLoop fuel hp p (some a) =
        (updateH hp pred ⟨hpr.size, hpr.is_free, none⟩, some pred) := by
  intro l
  induction l with
  | nil =>
    intro fuel p pred a hpr hc _ hne hlp hfuel
    cases hc with
    | cons hl0 hr =>
      rename_i h0
      have hh : h0 = hpr := Option.some.inj (hl0.symm.trans hlp)
      have hnx : h0.next = some a := isChain_head hr
      cases fuel with
      | zero => omega
      | succ f =>
        rw [delTailLoop_cons f hp pred (some a) h0 hl0, if_pos hnx, hh]
        exact delTailLoop_none _ _ _
  | cons x l ih =>
    intro fuel p pred a hpr hc hnotin hne hlp hfuel
    cases hc with
    | cons hl0 hr =>
      rename_i hx
      have hhead : ∃ y, hx.next = some y ∧ y ≠ a := by
        cases l with
        | nil =>
          exact ⟨pred, isChain_head hr, Ne.symm hne⟩
        | cons y l' =>
          refine ⟨y, isChain_head hr, ?_⟩
          intro hya
          exact hnotin (by simp [hya])
      obtain ⟨y, hy, hyne⟩ := hhead
      cases fuel with
      | zero => simp at hfuel
      | succ f =>
        rw [delTailLoop_cons f hp x (some a) hx hl0, if_neg (by
          intro hcon
          rw [hy] at hcon
          exact hyne (Option.some.inj hcon))]
        refine ih f hr (fun hl => hnotin (List.mem_cons_of_mem _ hl)) hne hlp ?_
        simp at hfuel
        omega

theorem isChain_extend {hp hp' : Heap} :
    ∀ {l : List Nat} {p : Option Nat} {t newaddr : Nat},
      IsChain hp p (l ++ [t]) →
      (∀ b ∈ l, lookupH hp' b = lookupH hp b) →
      (∀ ht0, lookupH hp t = some ht0 →
        lookupH hp' t = some ⟨ht0.size, ht0.is_free, some newaddr⟩) →
      (∃ hn, lookupH hp' newaddr = some hn ∧ hn.next = none) →
      IsChain hp' p (l ++ [t, newaddr]) := by
  intro l
  induction l with
  | nil =>
    intro p t newaddr hc Hpre Ht Hnew
    cases hc with
    | cons hl0 hr =>
      obtain ⟨hn, hln, hnn⟩ := Hnew
      refine IsChain.cons (Ht _ hl0) (IsChain.cons hln ?_)
      rw [hnn]
      exact IsChain.nil
  | cons x l ih =>
    intro p t newaddr hc Hpre Ht Hnew
    cases hc with
    | cons hl0 hr =>
      refine IsChain.cons (by rw [Hpre x (by simp)]; exact hl0) ?_
      exact ih hr (fun b hb => Hpre b (List.mem_cons_of_mem _ hb)) Ht Hnew

theorem isChain_unsnoc {hp hp' : Heap} :
    ∀ {l : List Nat} {p : Option Nat} {pred a : Nat} {hpr : Header},
      IsChain hp p (l ++ [pred, a]) →
      (∀ b ∈ l, lookupH hp' b = lookupH hp b) →
      lookupH hp pred = some hpr →
      lookupH hp' pred = some ⟨hpr.size, hpr.is_free, none⟩ →
      IsChain hp' p (l ++ [pred]) := by
  intro l
  induction l with
  | nil =>
    intro p pred a hpr hc Hpre hlp hlp'
    cases hc with
    | cons hl0 hr =>
      exact IsChain.cons hlp' IsChain.nil
  | cons x l ih =>
    intro p pred a hpr hc Hpre hlp hlp'
    cases hc with
    | cons hl0 hr =>
      refine IsChain.cons (by rw [Hpre x (by simp)]; exact hl0) ?_
      exact ih hr (fun b hb => Hpre b (List.mem_cons_of_mem _ hb)) hlp hlp'

theorem malloc_zero (ok : Bool) (s : State) : malloc ok s 0 = (s, none) := by
  simp [malloc]

theorem malloc_reuse (ok : Bool) (s : State) (n a : Nat) (hn : n ≠ 0)
    (hg : get_free_block s n = some a) :
    malloc ok s n = ({ s with heap := setFlag s.heap a false }, none) := by
  simp only [malloc, if_neg hn, hg]

theorem malloc_grow (s : State) (n : Nat) (hn : n ≠ 0)
    (hg : get_free_block s n = none) :
    malloc true s n = (growAppend s n, some (s.brk + headerSize)) := by
  simp only [malloc, if_neg hn, hg, if_pos]

theorem malloc_oom (s : State) (n : Nat) (hn : n ≠ 0)
    (hg : get_free_block s n = none) :
    malloc false s n = (s, none) := by
  simp only [malloc, if_neg hn, hg]
  rfl

theorem malloc_mem (ok : Bool) (s : State) (n : Nat) :
    (malloc ok s n).1.mem = s.mem := by
  unfold malloc
  by_cases hn : n = 0
  · rw [if_pos hn]
  · rw [if_neg hn]
    cases hg : get_free_block s n with
    | some a => rfl
    | none => cases ok <;> rfl

theorem wfC_setFlag {s : State} {c : List Nat} (hc : WfC s c) (a : Nat) (b : Bool) :
    WfC { s with heap := setFlag s.heap a b } c := by
  refine ⟨?_, hc.tail_ok, ?_, ?_⟩
  · exact isChain_congr hc.chain_ok (fun b' _ => setFlag_next _ _ _ _)
  · intro n h hl
    have hmap := setFlag_next s.heap a b n
    rw [hl] at hmap
    cases hl' : lookupH s.heap n with
    | none => rw [hl'] at hmap; simp at hmap
    | some h' => exact hc.dom_sub n h' hl'
  · obtain ⟨base, ht⟩ := hc.tiles
    exact ⟨base, tiles_congr ht (fun b' _ => setFlag_size _ _ _ _)⟩

theorem wfC_grow {s : State} {c : List Nat} (hc : WfC s c) (n : Nat) :
    WfC (growAppend s n) (c ++ [s.brk]) := by
  obtain ⟨base, ht⟩ := hc.tiles
  have hHS : headerSize = 24 := rfl
  have hbound : ∀ b ∈ c, b < s.brk := by
    intro b hb
    obtain ⟨h, hl⟩ := isChain_lookup hc.chain_ok b hb
    have := tiles_mem_end_le ht b hb h hl
    omega
  rcases List.eq_nil_or_concat c with rfl | ⟨c₀, t, hceq⟩
  · have hhead : s.head = none := isChain_nil_inv hc.chain_ok
    have htail : s.tail = none := by simpa using hc.tail_ok
    refine ⟨?_, ?_, ?_, ?_⟩
    · simp only [growAppend, hhead, htail, List.nil_append]
      exact IsChain.cons (lookupH_cons_self _ _ _) IsChain.nil
    · simp [growAppend]
    · intro n' h' hl
      simp only [growAppend, htail] at hl
      by_cases hb : s.brk = n'
      · simp [hb]
      · rw [lookupH_cons_other _ _ _ _ hb] at hl
        have := hc.dom_sub n' h' hl
        simp at this
    · refine ⟨s.brk, ?_⟩
      simp only [growAppend, htail, List.nil_append]
      refine ⟨rfl, ⟨n, false, none⟩, lookupH_cons_self _ _ _, ?_⟩
      show s.brk + headerSize + n = s.brk + (headerSize + n)
      omega
  · rw [List.concat_eq_append] at hceq
    subst hceq
    have htail : s.tail = some t := by
      rw [hc.tail_ok]
      exact List.getLast?_concat _
    have hmemt : t ∈ c₀ ++ [t] := by simp
    have hbt : t < s.brk := hbound t hmemt
    obtain ⟨h_t, hlt⟩ := isChain_lookup hc.chain_ok t hmemt
    have hnd := tiles_nodup ht
    have L1 : ∀ b ∈ c₀, lookupH (growAppend s n).heap b = lookupH s.heap b := by
      intro b hb
      have hbne_t : b ≠ t := by
        intro hbt'
        subst hbt'
        rw [List.nodup_append] at hnd
        exact hnd.2.2 hb (by simp)
      have hblt : b < s.brk := hbound b (by simp [hb])
      simp only [growAppend, htail]
      rw [lookupH_setNext_other _ _ _ _ hbne_t,
        lookupH_cons_other _ _ _ _ (by omega)]
    have L2 : lookupH (growAppend s n).heap t =
        some ⟨h_t.size, h_t.is_free, some s.brk⟩ := by
      simp only [growAppend, htail]
      rw [lookupH_setNext_self, lookupH_cons_other _ _ _ _ (by omega), hlt]
      rfl
    have L3 : lookupH (growAppend s n).heap s.brk = some ⟨n, false, none⟩ := by
      simp only [growAppend, htail]
      rw [lookupH_setNext_other _ _ _ _ (by omega), lookupH_cons_self]
    refine ⟨?_, ?_, ?_, ?_⟩
    · have hchain : IsChain (growAppend s n).heap s.head (c₀ ++ [t, s.brk]) := by
        refine isChain_extend hc.chain_ok L1 ?_ ⟨⟨n, false, none⟩, L3, rfl⟩
        intro ht0 hlt0
        have : ht0 = h_t := Option.some.inj (hlt0.symm.trans hlt)
        rw [this]
        exact L2
      have hhd : (growAppend s n).head = s.head := by
        obtain ⟨x, l', hxl⟩ : ∃ x l', c₀ ++ [t] = x :: l' := by
          cases c₀ <;> simp
        have : s.head = some x := isChain_head (by rw [hxl] at hc; exact hc.chain_ok)
        simp [growAppend, this]
      rw [hhd]
      have hassoc : (c₀ ++ [t]) ++ [s.brk] = c₀ ++ [t, s.brk] := by simp
      rw [hassoc]
      exact hchain
    · show some s.brk = ((c₀ ++ [t]) ++ [s.brk]).getLast?
      rw [List.getLast?_concat]
    · intro n' h' hl
      by_cases hb : n' = s.brk
      · simp [hb]
      · by_cases hbt' : n' = t
        · subst hbt'
          simp [hmemt]
        · rw [show (growAppend s n).heap =
              setNext ((s.brk, ⟨n, false, none⟩) :: s.heap) t (some s.brk) by
                simp [growAppend, htail]] at hl
          rw [lookupH_setNext_other _ _ _ _ hbt',
            lookupH_cons_other _ _ _ _ (fun he => hb he.symm)] at hl
          have := hc.dom_sub n' h' hl
          simp only [List.mem_append] at this ⊢
          tauto
    · refine ⟨base, ?_⟩
      have hsz : ∀ b ∈ c₀ ++ [t],
          (lookupH (growAppend s n).heap b).map Header.size =
            (lookupH s.heap b).map Header.size := by
        intro b hb
        by_cases hbt' : b = t
        · subst hbt'
          rw [L2, hlt]
          rfl
        · rw [L1 b ?_]
          rcases List.mem_append.mp hb with h1 | h1
          · exact h1
          · simp at h1
            exact absurd h1 hbt'
      refine tiles_append (tiles_congr ht hsz) ?_
      refine ⟨rfl, ⟨n, false, none⟩, L3, ?_⟩
      show s.brk + headerSize + n = s.brk + (headerSize + n)
      omega

theorem wf_malloc (ok : Bool) (s : State) (n : Nat) (hw : Wf s) :
    Wf (malloc ok s n).1 := by
  obtain ⟨c, hc⟩ := hw
  by_cases hn : n = 0
  · subst hn
    rw [malloc_zero]
    exact ⟨c, hc⟩
  · cases hg : get_free_block s n with
    | some a =>
      rw [malloc_reuse ok s n a hn hg]
      exact ⟨c, wfC_setFlag hc a false⟩
    | none =>
      cases ok with
      | true =>
        rw [malloc_grow s n hn hg]
        exact ⟨c ++ [s.brk], wfC_grow hc n⟩
      | false =>
        rw [malloc_oom s n hn hg]
        exact ⟨c, hc⟩

theorem free_none (s : State) : free s none = s := rfl

theorem free_no_header (s : State) (p : Nat)
    (hl : lookupH s.heap (p - headerSize) = none) : free s (some p) = s := by
  simp only [free, hl]

theorem free_mark (s : State) (p : Nat) (h : Header)
    (hl : lookupH s.heap (p - headerSize) = some h) (hne : p + h.size ≠ s.brk) :
    free s (some p) = { s with heap := setFlag s.heap (p - headerSize) true } := by
  simp only [free, hl, if_neg hne]

theorem free_tail_headtail (s : State) (p : Nat) (h : Header)
    (hl : lookupH s.heap (p - headerSize) = some h) (hend : p + h.size = s.brk)
    (hht : s.head = s.tail) :
    free s (some p) =
      { s with head := none, tail := none,
               heap := removeH s.heap (p - headerSize),
               brk := s.brk - (h.size + headerSize) } := by
  simp only [free, hl, if_pos hend, if_pos hht]

theorem free_tail_scan (s : State) (p : Nat) (h : Header)
    (hl : lookupH s.heap (p - headerSize) = some h) (hend : p + h.size = s.brk)
    (hht : ¬ s.head = s.tail) :
    free s (some p) =
      { s with heap := removeH (delTailLoop s.heap.length s.heap s.head s.tail).1
                 (p - headerSize),
               tail := (delTailLoop s.heap.length s.heap s.head s.tail).2,
               brk := s.brk - (h.size + headerSize) } := by
  simp only [free, hl, if_pos hend, if_neg hht]

theorem free_tail_core {s : State} {a : Nat} {h : Header}
    (hw : Wf s) (hlk : lookupH s.heap a = some h)
    (hend : a + headerSize + h.size = s.brk) :
    ∃ c₀, WfC s (c₀ ++ [a]) ∧ s.tail = some a ∧
      (s.head = s.tail →
        c₀ = [] ∧
        free s (some (a + headerSize)) =
          { s with head := none, tail := none, heap := removeH s.heap a,
                   brk := s.brk - (h.size + headerSize) }) ∧
      (s.head ≠ s.tail →
        ∃ c₂ pred hpr, c₀ = c₂ ++ [pred] ∧ lookupH s.heap pred = some hpr ∧
          free s (some (a + headerSize)) =
            { s with heap := removeH
                       (updateH s.heap pred ⟨hpr.size, hpr.is_free, none⟩) a,
                     tail := some pred,
                     brk := s.brk - (h.size + headerSize) }) := by
  obtain ⟨c, hc⟩ := hw
  obtain ⟨base, ht⟩ := hc.tiles
  have hmem : a ∈ c := hc.dom_sub a h hlk
  obtain ⟨c₀, hceq⟩ := tiles_last ht hmem hlk hend
  subst hceq
  have htail : s.tail = some a := by rw [hc.tail_ok, List.getLast?_concat]
  have hpa : a + headerSize - headerSize = a := by omega
  have hnd := tiles_nodup ht
  refine ⟨c₀, hc, htail, ?_, ?_⟩
  · intro hht
    have hc0 : c₀ = [] := by
      cases c₀ with
      | nil => rfl
      | cons x c₀' =>
        exfalso
        have hhd : s.head = some x := isChain_head hc.chain_ok
        have hxa : x = a := by
          have hx := hht
          rw [hhd, htail] at hx
          exact Option.some.inj hx
        have hmem2 : x ∈ c₀' ++ [a] := by simp [hxa]
        exact (List.nodup_cons.mp hnd).1 hmem2
    subst hc0
    refine ⟨rfl, ?_⟩
    have heq := free_tail_headtail s (a + headerSize) h (by rw [hpa]; exact hlk)
      hend hht
    rw [heq, hpa]
  · intro hht
    have hc0ne : c₀ ≠ [] := by
      intro h0
      subst h0
      have hhd : s.head = some a := isChain_head hc.chain_ok
      exact hht (by rw [hhd, htail])
    rcases List.eq_nil_or_concat c₀ with h0 | ⟨c₂, pred, hceq2⟩
    · exact absurd h0 hc0ne
    · rw [List.concat_eq_append] at hceq2
      subst hceq2
      have hch2 : IsChain s.heap s.head (c₂ ++ [pred, a]) := by
        have hco := hc.chain_ok
        rwa [List.append_assoc] at hco
      have hpredmem : pred ∈ (c₂ ++ [pred]) ++ [a] := by simp
      obtain ⟨hpr, hlp⟩ := isChain_lookup hc.chain_ok pred hpredmem
      have hpw := tiles_pairwise ht
      rw [List.pairwise_append] at hpw
      have hlt_a : ∀ x ∈ c₂ ++ [pred], x < a := fun x hx => hpw.2.2 x hx a (by simp)
      have hanotin : a ∉ c₂ := by
        intro hin
        exact lt_irrefl a (hlt_a a (List.mem_append_left _ hin))
      have hanep : a ≠ pred := (hlt_a pred (by simp)).ne'
      have hlen := chain_length_le hc.chain_ok hnd
      have hloop := delTailLoop_spec c₂ s.heap.length hch2 hanotin hanep hlp (by
        simp only [List.length_append, List.length_cons, List.length_nil] at hlen ⊢
        omega)
      refine ⟨c₂, pred, hpr, rfl, hlp, ?_⟩
      have heq := free_tail_scan s (a + headerSize) h (by rw [hpa]; exact hlk)
        hend hht
      rw [heq, htail, hloop, hpa]

theorem wf_free (s : State) (p : Option Nat) (hw : Wf s) : Wf (free s p) := by
  cases p with
  | none => exact hw
  | some p =>
    cases hlk : lookupH s.heap (p - headerSize) with
    | none =>
      rw [free_no_header s p hlk]
      exact hw
    | some h =>
      by_cases hend : p + h.size = s.brk
      · obtain ⟨c, hc⟩ := hw
        obtain ⟨base, ht⟩ := hc.tiles
        have hmem := hc.dom_sub _ h hlk
        have hle := tiles_mem_end_le ht _ hmem h hlk
        have h24 : headerSize = 24 := rfl
        have hpeq : p = (p - headerSize) + headerSize := by omega
        have hend' : (p - headerSize) + headerSize + h.size = s.brk := by omega
        obtain ⟨c₀, hc', htail, hcase1, hcase2⟩ := free_tail_core ⟨c, hc⟩ hlk hend'
        rw [show (some p) = some ((p - headerSize) + headerSize) from by rw [← hpeq]]
        by_cases hht : s.head = s.tail
        · obtain ⟨hc0, heq⟩ := hcase1 hht
          rw [heq]
          subst hc0
          refine ⟨[], IsChain.nil, rfl, ?_, ⟨s.brk - (h.size + headerSize), rfl⟩⟩
          intro n h' hl
          exfalso
          by_cases hna : n = p - headerSize
          · subst hna
            rw [lookupH_remove_self] at hl
            exact Option.noConfusion hl
          · rw [lookupH_remove_other _ _ _ hna] at hl
            have := hc'.dom_sub n h' hl
            simp at this
            exact hna this
        · obtain ⟨c₂, pred, hpr, hc0eq, hlp, heq⟩ := hcase2 hht
          rw [heq]
          subst hc0eq
          obtain ⟨base', ht'⟩ := hc'.tiles
          have hnd' := tiles_nodup ht'
          have hpw := tiles_pairwise ht'
          rw [List.pairwise_append] at hpw
          have hlt_a : ∀ x ∈ c₂ ++ [pred], x < p - headerSize :=
            fun x hx => hpw.2.2 x hx _ (by simp)
          have hch2 : IsChain s.heap s.head (c₂ ++ [pred, p - headerSize]) := by
            have hco := hc'.chain_ok
            rwa [List.append_assoc] at hco
          have T1 : ∀ b ∈ c₂,
              lookupH (removeH
                (updateH s.heap pred ⟨hpr.size, hpr.is_free, none⟩) (p - headerSize)) b =
              lookupH s.heap b := by
            intro b hb
            have hba : b ≠ p - headerSize := (hlt_a b (List.mem_append_left _ hb)).ne
            have hbpred : b ≠ pred := by
              have := hpw.1
              rw [List.pairwise_append] at this
              exact (this.2.2 b hb pred (by simp)).ne
            rw [lookupH_remove_other _ _ _ hba, lookupH_update_other _ _ _ _ hbpred]
          have T2 : lookupH (removeH
              (updateH s.heap pred ⟨hpr.size, hpr.is_free, none⟩) (p - headerSize)) pred =
              some ⟨hpr.size, hpr.is_free, none⟩ := by
            rw [lookupH_remove_other _ _ _ (hlt_a pred (by simp)).ne,
              lookupH_update_self, hlp]
            rfl
          refine ⟨c₂ ++ [pred], ?_, ?_, ?_, ?_⟩
          · exact isChain_unsnoc hch2 T1 hlp T2
          · show some pred = (c₂ ++ [pred]).getLast?
            rw [List.getLast?_concat]
          · intro n h' hl
            by_cases hna : n = p - headerSize
            · subst hna
              rw [lookupH_remove_self] at hl
              exact Option.noConfusion hl
            · rw [lookupH_remove_other _ _ _ hna] at hl
              by_cases hnp : n = pred
              · subst hnp
                simp
              · rw [lookupH_update_other _ _ _ _ hnp] at hl
                have := hc'.dom_sub n h' hl
                simp only [List.mem_append, List.mem_singleton] at this ⊢
                rcases this with (h1 | h1) | h1
                · exact Or.inl h1
                · exact Or.inr h1
                · exact absurd h1 hna
          · obtain ⟨mid, h₁, h₂⟩ := tiles_append_split ht'
            obtain ⟨ham, ha2, hla2, hrest⟩ := h₂
            have hfun : ha2 = h := Option.some.inj (hla2.symm.trans hlk)
            subst hfun
            have hbrk : mid + headerSize + ha2.size = s.brk := hrest
            refine ⟨base', ?_⟩
            have hbrk' : s.brk - (ha2.size + headerSize) = mid := by omega
            rw [hbrk']
            refine tiles_congr h₁ ?_
            intro b hb
            have hba : b ≠ p - headerSize := (hlt_a b hb).ne
            rw [lookupH_remove_other _ _ _ hba]
            by_cases hbp : b = pred
            · subst hbp
              rw [lookupH_update_self, hlp]
              rfl
            · rw [lookupH_update_other _ _ _ _ hbp]
      · rw [free_mark s p h hlk hend]
        obtain ⟨c, hc⟩ := hw
        exact ⟨c, wfC_setFlag hc _ true⟩

theorem wf_mem_set (s : State) (m : Nat → Nat) (hw : Wf s) : Wf { s with mem := m } := by
  obtain ⟨c, hc⟩ := hw
  exact ⟨c, hc.chain_ok, hc.tail_ok, hc.dom_sub, hc.tiles⟩

theorem calloc_zero_guard (ok : Bool) (s : State) (num nsize : Nat)
    (h1 : num = 0 ∨ nsize = 0) : calloc ok s num nsize = (s, none) := by
  simp only [calloc, if_pos h1]

theorem calloc_overflow_guard (ok : Bool) (s : State) (num nsize : Nat)
    (h1 : ¬(num = 0 ∨ nsize = 0)) (h2 : nsize ≠ num * nsize % 2 ^ sizeTWidth / num) :
    calloc ok s num nsize = (s, none) := by
  simp only [calloc, if_neg h1, if_pos h2]

theorem calloc_delegate (ok : Bool) (s : State) (num nsize : Nat)
    (h1 : ¬(num = 0 ∨ nsize = 0)) (h2 : ¬ nsize ≠ num * nsize % 2 ^ sizeTWidth / num) :
    calloc ok s num nsize =
      match malloc ok s (num * nsize % 2 ^ sizeTWidth) with
      | (s1, none) => (s1, none)
      | (s1, some b) =>
        ({ s1 with mem := memset s1.mem b 0 (num * nsize % 2 ^ sizeTWidth) }, some b) := by
  simp only [calloc, if_neg h1, if_neg h2]

theorem realloc_nullblock (ok : Bool) (s : State) (sz : Nat) :
    realloc ok s none sz = malloc ok s sz := rfl

theorem realloc_zero (ok : Bool) (s : State) (p : Nat) :
    realloc ok s (some p) 0 = malloc ok s 0 := by
  simp [realloc]

theorem realloc_no_header (ok : Bool) (s : State) (p sz : Nat) (h0 : sz ≠ 0)
    (hl : lookupH s.heap (p - headerSize) = none) :
    realloc ok s (some p) sz = (s, none) := by
  simp only [realloc, if_neg h0, hl]

theorem realloc_keep (ok : Bool) (s : State) (p sz : Nat) (h : Header) (h0 : sz ≠ 0)
    (hl : lookupH s.heap (p - headerSize) = some h) (hsz : sz ≤ h.size) :
    realloc ok s (some p) sz = (s, some p) := by
  simp only [realloc, if_neg h0, hl, if_pos hsz]

theorem realloc_move (ok : Bool) (s : State) (p sz : Nat) (h : Header) (h0 : sz ≠ 0)
    (hl : lookupH s.heap (p - headerSize) = some h) (hsz : ¬ sz ≤ h.size) :
    realloc ok s (some p) sz =
      match malloc ok s sz with
      | (s1, none) => (s1, none)
      | (s1, some q) =>
        (free { s1 with mem := memcpy s1.mem q p h.size } (some p), some q) := by
  simp only [realloc, if_neg h0, hl, if_neg hsz]

theorem wf_calloc (ok : Bool) (s : State) (num nsize : Nat) (hw : Wf s) :
    Wf (calloc ok s num nsize).1 := by
  by_cases h1 : num = 0 ∨ nsize = 0
  · rw [calloc_zero_guard ok s num nsize h1]
    exact hw
  · by_cases h2 : nsize ≠ num * nsize % 2 ^ sizeTWidth / num
    · rw [calloc_overflow_guard ok s num nsize h1 h2]
      exact hw
    · rw [calloc_delegate ok s num nsize h1 h2]
      rcases hm : malloc ok s (num * nsize % 2 ^ sizeTWidth) with ⟨s1, ret⟩
      have hws1 : Wf s1 := by
        have hh := wf_malloc ok s (num * nsize % 2 ^ sizeTWidth) hw
        rwa [hm] at hh
      cases ret with
      | none => exact hws1
      | some b => exact wf_mem_set s1 _ hws1

theorem wf_realloc (ok : Bool) (s : State) (block : Option Nat) (sz : Nat) (hw : Wf s) :
    Wf (realloc ok s block sz).1 := by
  cases block with
  | none => exact wf_malloc ok s sz hw
  | some p =>
    by_cases h0 : sz = 0
    · subst h0
      rw [realloc_zero]
      exact wf_malloc ok s 0 hw
    · cases hlk : lookupH s.heap (p - headerSize) with
      | none =>
        rw [realloc_no_header ok s p sz h0 hlk]
        exact hw
      | some h =>
        by_cases hsz : sz ≤ h.size
        · rw [realloc_keep ok s p sz h h0 hlk hsz]
          exact hw
        · rw [realloc_move ok s p sz h h0 hlk hsz]
          rcases hm : malloc ok s sz with ⟨s1, ret⟩
          have hws1 : Wf s1 := by
            have hh := wf_malloc ok s sz hw
            rwa [hm] at hh
          cases ret with
          | none => exact hws1
          | some q =>
            show Wf (free { s1 with mem := memcpy s1.mem q p h.size } (some p))
            exact wf_free _ _ (wf_mem_set s1 _ hws1)

theorem wf_init (base : Nat) (m : Nat → Nat) : Wf (init base m) :=
  ⟨[], IsChain.nil, rfl, fun n h hl => by simp [init, lookupH] at hl, ⟨base, rfl⟩⟩

theorem wf_step (s : State) (op : Op) (hw : Wf s) : Wf (step s op) := by
  cases op with
  | alloc ok n => exact wf_malloc ok s n hw
  | zalloc ok a b => exact wf_calloc ok s a b hw
  | re ok p n => exact wf_realloc ok s p n hw
  | dealloc p => exact wf_free s p hw

theorem wf_run (s : State) (ops : List Op) (hw : Wf s) : Wf (run s ops) := by
  induction ops generalizing s with
  | nil => exact hw
  | cons op ops ih => exact ih _ (wf_step s op hw)

theorem malloc_none_inv (ok : Bool) (s : State) (sz : Nat) (s1 : State)
    (h0 : sz ≠ 0) (hm : malloc ok s sz = (s1, none)) :
    (∃ a, get_free_block s sz = some a ∧
      s1 = { s with heap := setFlag s.heap a false }) ∨ s1 = s := by
  cases hg : get_free_block s sz with
  | some a =>
    left
    rw [malloc_reuse ok s sz a h0 hg] at hm
    exact ⟨a, rfl, (congrArg Prod.fst hm).symm⟩
  | none =>
    right
    cases ok with
    | true =>
      rw [malloc_grow s sz h0 hg] at hm
      exact absurd (congrArg Prod.snd hm) (by simp)
    | false =>
      rw [malloc_oom s sz h0 hg] at hm
      exact (congrArg Prod.fst hm).symm

theorem malloc_some_inv (ok : Bool) (s : State) (sz : Nat) (s1 : State) (q : Nat)
    (hm : malloc ok s sz = (s1, some q)) :
    sz ≠ 0 ∧ get_free_block s sz = none ∧ ok = true ∧
      s1 = growAppend s sz ∧ q = s.brk + headerSize := by
  by_cases h0 : sz = 0
  · subst h0
    rw [malloc_zero] at hm
    exact absurd (congrArg Prod.snd hm) (by simp)
  · cases hg : get_free_block s sz with
    | some a =>
      rw [malloc_reuse ok s sz a h0 hg] at hm
      exact absurd (congrArg Prod.snd hm) (by simp)
    | none =>
      cases ok with
      | false =>
        rw [malloc_oom s sz h0 hg] at hm
        exact absurd (congrArg Prod.snd hm) (by simp)
      | true =>
        rw [malloc_grow s sz h0 hg] at hm
        refine ⟨h0, rfl, rfl, (congrArg Prod.fst hm).symm, ?_⟩
        exact (Option.some.inj (congrArg Prod.snd hm)).symm

theorem free_mem (s : State) (p : Option Nat) : (free s p).mem = s.mem := by
  cases p with
  | none => rfl
  | some p =>
    cases hl : lookupH s.heap (p - headerSize) with
    | none => rw [free_no_header s p hl]
    | some h =>
      by_cases hend : p + h.size = s.brk
      · by_cases hht : s.head = s.tail
        · rw [free_tail_headtail s p h hl hend hht]
        · rw [free_tail_scan s p h hl hend hht]
      · rw [free_mark s p h hl hend]

theorem getLast?_eq_none_iff {c : List Nat} : c.getLast? = none ↔ c = [] := by
  rcases List.eq_nil_or_concat c with rfl | ⟨c', t, hceq⟩
  · simp
  · rw [List.concat_eq_append] at hceq
    subst hceq
    rw [List.getLast?_concat]
    simp

theorem getLast?_some_concat {c : List Nat} {a : Nat} (h : c.getLast? = some a) :
    ∃ c', c = c' ++ [a] := by
  rcases List.eq_nil_or_concat c with rfl | ⟨c', t, hceq⟩
  · simp at h
  · rw [List.concat_eq_append] at hceq
    subst hceq
    rw [List.getLast?_concat] at h
    exact ⟨c', by rw [Option.some.inj h]⟩

theorem free_mark_lookup (s : State) (p : Nat) (h : Header)
    (hl : lookupH s.heap (p - headerSize) = some h) (hne : p + h.size ≠ s.brk) :
    lookupH (free s (some p)).heap (p - headerSize) = some ⟨h.size, true, h.next⟩ := by
  rw [free_mark s p h hl hne]
  show lookupH (setFlag s.heap (p - headerSize) true) (p - headerSize) = _
  rw [lookupH_setFlag_self, hl]
  rfl

/-- C1: on the concrete state `sFree` the first-fit scan of `malloc` finds
the free block at address 0 with recorded size 20 ≥ 20, yet the call
returns no allocation (`NULL`) instead of the payload handle `24` — the
code violates the contract that the reuse path returns the payload handle of the
reused block. -/
theorem malloc_reuse_returns_no_handle :
    get_free_block sFree 20 = some 0 ∧ (malloc true sFree 20).2 = none :=
  ⟨rfl, rfl⟩

/-- C10: whenever the size is positive and the first-fit scan finds a free block of
sufficient size, `malloc` clears the free flag of that block (size and link are
kept), even though the value it returns is no allocation. -/
theorem malloc_reuse_clears_flag (ok : Bool) (s : State) (n a : Nat)
    (hn : 0 < n) (hg : get_free_block s n = some a) :
    ∃ h, lookupH s.heap a = some h ∧
      lookupH (malloc ok s n).1.heap a = some ⟨h.size, false, h.next⟩ ∧
      (malloc ok s n).2 = none := by
  obtain ⟨h, hl, hfree, hsz⟩ := gfbLoop_some hg
  refine ⟨h, hl, ?_, ?_⟩
  · rw [malloc_reuse ok s n a (by omega) hg]
    show lookupH (setFlag s.heap a false) a = some ⟨h.size, false, h.next⟩
    rw [lookupH_setFlag_self, hl]
    rfl
  · rw [malloc_reuse ok s n a (by omega) hg]

/-- Witness for C10 at the concrete state `sFree`. -/
theorem malloc_reuse_clears_flag_witness :
    lookupH (malloc true sFree 20).1.heap 0 = some ⟨20, false, some 44⟩ ∧
    (malloc true sFree 20).2 = none := by
  obtain ⟨h, hl, hres, hnone⟩ := malloc_reuse_clears_flag true sFree 20 0 (by decide) rfl
  have hl0 : lookupH sFree.heap 0 = some ⟨20, true, some 44⟩ := rfl
  have hh : h = ⟨20, true, some 44⟩ := Option.some.inj (hl.symm.trans hl0)
  rw [hh] at hres
  exact ⟨hres, hnone⟩

/-- C3: with `size > 0`, no reusable free block exists, and the OS refuses the
growth request: `malloc` returns no allocation and the state — `head`,
`tail`, every header, the break, the payload bytes — is exactly the input
state. -/
theorem malloc_oom_no_mutation (s : State) (n : Nat) (hn : 0 < n)
    (hnofree : ∀ a h, lookupH s.heap a = some h → h.is_free = true → h.size < n) :
    malloc false s n = (s, none) := by
  cases hg : get_free_block s n with
  | some a =>
    exfalso
    obtain ⟨h, hl, hfree, hsz⟩ := gfbLoop_some hg
    exact absurd hsz (Nat.not_le_of_lt (hnofree a h hl hfree))
  | none => exact malloc_oom s n (by omega) hg

/-- Witness for C3 at the empty state. -/
theorem malloc_oom_no_mutation_witness : malloc false s0 5 = (s0, none) :=
  malloc_oom_no_mutation s0 5 (by decide)
    (fun a h hl _ => Option.noConfusion hl)

/-- C6: the zero guards of `calloc` and its multiplication-overflow guard
`(count * elementSize mod 2^w) / count ≠ elementSize` both return no
allocation with the state untouched. -/
theorem calloc_guards (ok : Bool) (s : State) (num nsize : Nat) :
    (num = 0 ∨ nsize = 0 → calloc ok s num nsize = (s, none)) ∧
    (num ≠ 0 → nsize ≠ 0 → nsize ≠ num * nsize % 2 ^ sizeTWidth / num →
      calloc ok s num nsize = (s, none)) := by
  constructor
  · intro h1
    exact calloc_zero_guard ok s num nsize h1
  · intro h1 h2 h3
    exact calloc_overflow_guard ok s num nsize (by tauto) h3

/-- Witness for C6 with a zero count and a product that wraps around 2^64. -/
theorem calloc_guards_witness :
    calloc true s0 0 7 = (s0, none) ∧ calloc true s0 (2 ^ 63) 2 = (s0, none) :=
  ⟨(calloc_guards true s0 0 7).1 (Or.inl rfl),
   (calloc_guards true s0 (2 ^ 63) 2).2 (by norm_num) (by norm_num)
     (by norm_num [sizeTWidth])⟩

/-- C7: when `calloc` returns a handle, all `count * elementSize` bytes of
the returned region read as zero. -/
theorem calloc_zeroed (ok : Bool) (s : State) (num nsize : Nat) (s' : State) (q : Nat)
    (heq : calloc ok s num nsize = (s', some q)) :
    ∀ i, i < num * nsize → s'.mem (q + i) = 0 := by
  intro i hi
  by_cases h1 : num = 0 ∨ nsize = 0
  · rw [calloc_zero_guard ok s num nsize h1] at heq
    exact absurd (congrArg Prod.snd heq) (by simp)
  · by_cases h2 : nsize ≠ num * nsize % 2 ^ sizeTWidth / num
    · rw [calloc_overflow_guard ok s num nsize h1 h2] at heq
      exact absurd (congrArg Prod.snd heq) (by simp)
    · rw [calloc_delegate ok s num nsize h1 h2] at heq
      push_neg at h2
      rcases hm : malloc ok s (num * nsize % 2 ^ sizeTWidth) with ⟨s1, ret⟩
      rw [hm] at heq
      cases ret with
      | none => exact absurd (congrArg Prod.snd heq) (by simp)
      | some b =>
        have hs' : s' =
            { s1 with mem := memset s1.mem b 0 (num * nsize % 2 ^ sizeTWidth) } :=
          (congrArg Prod.fst heq).symm
        have hq : b = q := Option.some.inj (congrArg Prod.snd heq)
        rw [hq] at hs'
        have hnum : num ≠ 0 := fun hz => h1 (Or.inl hz)
        have hle : num * nsize ≤ num * nsize % 2 ^ sizeTWidth := by
          have hdm := Nat.div_mul_le_self (num * nsize % 2 ^ sizeTWidth) num
          calc num * nsize = num * nsize % 2 ^ sizeTWidth / num * num := by
                rw [← h2]; ring
            _ ≤ num * nsize % 2 ^ sizeTWidth := hdm
        rw [hs']
        show memset s1.mem q 0 (num * nsize % 2 ^ sizeTWidth) (q + i) = 0
        unfold memset
        rw [if_pos ⟨Nat.le_add_right _ _, by omega⟩]

/-- Witness for C7 via `calloc(3, 4)` from the empty state; byte 5 of the
returned 12-byte payload is zero. -/
theorem calloc_zeroed_witness : (calloc true s0 3 4).1.mem (24 + 5) = 0 :=
  calloc_zeroed true s0 3 4 (calloc true s0 3 4).1 24 rfl 5 (by decide)

/-- C8: calling `realloc` on a handle whose recorded block size already covers the
request returns the same handle and the state is completely unchanged (size,
flag, link, payload bytes). -/
theorem realloc_noshrink (ok : Bool) (s : State) (a p sz : Nat) (h : Header)
    (hp : p = a + headerSize) (hl : lookupH s.heap a = some h) (h0 : 0 < sz)
    (hsz : sz ≤ h.size) :
    realloc ok s (some p) sz = (s, some p) := by
  subst hp
  refine realloc_keep ok s _ sz h (by omega) ?_ hsz
  rw [show a + headerSize - headerSize = a from by omega]
  exact hl

/-- Witness for C8 at the one-block state `sOne`. -/
theorem realloc_noshrink_witness : realloc true sOne (some 24) 12 = (sOne, some 24) :=
  realloc_noshrink true sOne 0 24 12 ⟨20, false, none⟩ rfl rfl (by decide) (by decide)

/-- C9: deallocating a block whose payload does not end at the break only
sets the free flag of that block: break, head, tail, payload bytes, the number
of headers and every other header are unchanged, and the block remains
reachable from head. -/
theorem free_nontail_frame (s : State) (a p : Nat) (h : Header)
    (hw : Wf s) (hl : lookupH s.heap a = some h) (hp : p = a + headerSize)
    (hne : p + h.size ≠ s.brk) :
    (free s (some p)).brk = s.brk ∧
    (free s (some p)).head = s.head ∧
    (free s (some p)).tail = s.tail ∧
    (free s (some p)).mem = s.mem ∧
    (free s (some p)).heap.length = s.heap.length ∧
    lookupH (free s (some p)).heap a = some ⟨h.size, true, h.next⟩ ∧
    (∀ b, b ≠ a → lookupH (free s (some p)).heap b = lookupH s.heap b) ∧
    (∃ c, IsChain (free s (some p)).heap (free s (some p)).head c ∧ a ∈ c) := by
  subst hp
  have hpa : a + headerSize - headerSize = a := by omega
  have hl' : lookupH s.heap (a + headerSize - headerSize) = some h := by
    rw [hpa]
    exact hl
  have heq := free_mark s (a + headerSize) h hl' hne
  rw [heq, hpa]
  refine ⟨rfl, rfl, rfl, rfl, ?_, ?_, ?_, ?_⟩
  · exact length_setFlag _ _ _
  · show lookupH (setFlag s.heap a true) a = some ⟨h.size, true, h.next⟩
    rw [lookupH_setFlag_self, hl]
    rfl
  · intro b hb
    show lookupH (setFlag s.heap a true) b = lookupH s.heap b
    exact lookupH_setFlag_other _ _ _ _ hb
  · obtain ⟨c, hc⟩ := hw
    refine ⟨c, ?_, hc.dom_sub a h hl⟩
    show IsChain (setFlag s.heap a true) s.head c
    exact isChain_congr hc.chain_ok (fun b _ => setFlag_next _ _ _ _)

/-- Witness for C9 at the two-block state `sTwo`, freeing the low block. -/
theorem free_nontail_frame_witness :
    (free sTwo (some 24)).brk = sTwo.brk ∧
    lookupH (free sTwo (some 24)).heap 0 = some ⟨20, true, some 44⟩ ∧
    (free sTwo (some 24)).heap.length = sTwo.heap.length := by
  obtain ⟨h1, _, _, _, h5, h6, _, _⟩ :=
    free_nontail_frame sTwo 0 24 ⟨20, false, some 44⟩
      (wf_run s0 [Op.alloc true 20, Op.alloc true 12] (wf_init 0 mem0))
      rfl rfl (by decide)
  exact ⟨h1, h6, h5⟩

/-- C2: deallocating the block whose payload ends at the current break: if
it is both head and tail the list becomes empty; otherwise the predecessor
of tail found by the linear scan from head gets its link cleared and
becomes the new tail; in both cases the break shrinks by exactly
headerSize + size and the header of the block is destroyed. -/
theorem free_tail_release (s : State) (a p : Nat) (h : Header)
    (hw : Wf s) (hl : lookupH s.heap a = some h) (hp : p = a + headerSize)
    (hend : p + h.size = s.brk) :
    (free s (some p)).brk + (headerSize + h.size) = s.brk ∧
    lookupH (free s (some p)).heap a = none ∧
    (s.head = some a ∧ s.tail = some a →
      (free s (some p)).head = none ∧ (free s (some p)).tail = none) ∧
    (¬(s.head = some a ∧ s.tail = some a) →
      ∃ c₂ pred hpr, IsChain s.heap s.head (c₂ ++ [pred, a]) ∧
        lookupH s.heap pred = some hpr ∧
        (free s (some p)).tail = some pred ∧
        (free s (some p)).head = s.head ∧
        lookupH (free s (some p)).heap pred =
          some ⟨hpr.size, hpr.is_free, none⟩) := by
  subst hp
  have hend' : a + headerSize + h.size = s.brk := hend
  obtain ⟨c₀, hc', htail, hcase1, hcase2⟩ := free_tail_core hw hl hend'
  have hble : headerSize + h.size ≤ s.brk := by omega
  by_cases hht : s.head = s.tail
  · obtain ⟨hc0, heq⟩ := hcase1 hht
    rw [heq]
    refine ⟨?_, lookupH_remove_self _ _, fun _ => ⟨rfl, rfl⟩, ?_⟩
    · show s.brk - (h.size + headerSize) + (headerSize + h.size) = s.brk
      omega
    · intro hnot
      exact absurd ⟨hht.trans htail, htail⟩ hnot
  · obtain ⟨c₂, pred, hpr, hc₀eq, hlp, heq⟩ := hcase2 hht
    subst hc₀eq
    rw [heq]
    refine ⟨?_, lookupH_remove_self _ _, ?_, ?_⟩
    · show s.brk - (h.size + headerSize) + (headerSize + h.size) = s.brk
      omega
    · intro hboth
      exact absurd (hboth.1.trans hboth.2.symm) hht
    · intro hnot
      have hch2 : IsChain s.heap s.head (c₂ ++ [pred, a]) := by
        have hco := hc'.chain_ok
        rwa [List.append_assoc] at hco
      refine ⟨c₂, pred, hpr, hch2, hlp, rfl, rfl, ?_⟩
      obtain ⟨base', ht'⟩ := hc'.tiles
      have hpw := tiles_pairwise ht'
      rw [List.pairwise_append] at hpw
      have hplt : pred < a := hpw.2.2 pred (by simp) a (by simp)
      show lookupH (removeH (updateH s.heap pred ⟨hpr.size, hpr.is_free, none⟩) a)
          pred = some ⟨hpr.size, hpr.is_free, none⟩
      rw [lookupH_remove_other _ _ _ hplt.ne, lookupH_update_self, hlp]
      rfl

/-- Witness for C2 at the one-block state `sOne`: the only block is head
and tail, the list empties and the break returns to the base. -/
theorem free_tail_release_witness :
    (free sOne (some 24)).brk + (headerSize + 20) = sOne.brk ∧
    lookupH (free sOne (some 24)).heap 0 = none ∧
    (free sOne (some 24)).head = none ∧ (free sOne (some 24)).tail = none := by
  obtain ⟨h1, h2, h3, _⟩ := free_tail_release sOne 0 24 ⟨20, false, none⟩
    (wf_run s0 [Op.alloc true 20] (wf_init 0 mem0)) rfl rfl (by decide)
  obtain ⟨h3a, h3b⟩ := h3 ⟨rfl, rfl⟩
  exact ⟨h1, h2, h3a, h3b⟩

/-- C4: calling `realloc` on a live in-use block with a strictly larger request
delegates to `malloc`: if that fails the call returns no allocation and the
original block (header and payload) is untouched; if it succeeds the call
returns the fresh handle, different from the old one, the old payload's
first `size` bytes read back from the new payload, and the old block has
been deallocated (marked free, its recorded size kept). -/
theorem realloc_grow_spec (ok : Bool) (s : State) (a p sz : Nat) (h : Header)
    (hw : Wf s) (hl : lookupH s.heap a = some h) (hp : p = a + headerSize)
    (hfree : h.is_free = false) (h0 : 0 < sz) (hlt : h.size < sz) :
    (∀ s1, malloc ok s sz = (s1, none) →
      realloc ok s (some p) sz = (s1, none) ∧
      lookupH s1.heap a = some h ∧ s1.mem = s.mem) ∧
    (∀ s1 q, malloc ok s sz = (s1, some q) →
      (realloc ok s (some p) sz).2 = some q ∧ q ≠ p ∧
      (∀ i, i < h.size →
        (realloc ok s (some p) sz).1.mem (q + i) = s.mem (p + i)) ∧
      (∃ h', lookupH (realloc ok s (some p) sz).1.heap a = some h' ∧
        h'.is_free = true ∧ h'.size = h.size)) := by
  subst hp
  have h24 : headerSize = 24 := rfl
  have hpa : a + headerSize - headerSize = a := by omega
  have hl' : lookupH s.heap (a + headerSize - headerSize) = some h := by
    rw [hpa]
    exact hl
  have hmove := realloc_move ok s (a + headerSize) sz h (by omega) hl' (by omega)
  obtain ⟨c, hc⟩ := hw
  obtain ⟨base, ht⟩ := hc.tiles
  have hmem : a ∈ c := hc.dom_sub a h hl
  have hendle : a + headerSize + h.size ≤ s.brk := tiles_mem_end_le ht a hmem h hl
  constructor
  · intro s1 hm
    refine ⟨by rw [hmove, hm], ?_, ?_⟩
    · rcases malloc_none_inv ok s sz s1 (by omega) hm with ⟨a', hg', hs1⟩ | hs1
      · obtain ⟨h', hl2, hfree', _⟩ := gfbLoop_some hg'
        have hne : a ≠ a' := by
          intro hEq
          subst hEq
          have hhh : h = h' := Option.some.inj (hl.symm.trans hl2)
          rw [hhh, hfree'] at hfree
          simp at hfree
        rw [hs1]
        show lookupH (setFlag s.heap a' false) a = some h
        rw [lookupH_setFlag_other _ _ _ _ hne]
        exact hl
      · rw [hs1]
        exact hl
    · have hmm := malloc_mem ok s sz
      rw [hm] at hmm
      exact hmm
  · intro s1 q hm
    obtain ⟨hsz0, hg, hok, hs1, hq⟩ := malloc_some_inv ok s sz s1 q hm
    subst hs1
    have e2 := hmove.trans (by rw [hm])
    have hqp : q ≠ a + headerSize := by omega
    refine ⟨by rw [e2], hqp, ?_, ?_⟩
    · intro i hi
      rw [e2]
      show (free { growAppend s sz with
          mem := memcpy (growAppend s sz).mem q (a + headerSize) h.size }
          (some (a + headerSize))).mem (q + i) = s.mem (a + headerSize + i)
      rw [free_mem]
      show memcpy (growAppend s sz).mem q (a + headerSize) h.size (q + i) =
        s.mem (a + headerSize + i)
      unfold memcpy
      rw [if_pos ⟨Nat.le_add_right _ _, by omega⟩]
      show s.mem (a + headerSize + (q + i - q)) = s.mem (a + headerSize + i)
      congr 1
      omega
    · have hexists : ∃ h1 : Header, lookupH (growAppend s sz).heap a = some h1 ∧
          h1.size = h.size ∧ h1.is_free = h.is_free := by
        cases htl : s.tail with
        | none =>
          refine ⟨h, ?_, rfl, rfl⟩
          simp only [growAppend, htl]
          rw [lookupH_cons_other _ _ _ _ (by omega)]
          exact hl
        | some t =>
          have htmem : t ∈ c := by
            have ho := hc.tail_ok
            rw [htl] at ho
            obtain ⟨c', hceq⟩ := getLast?_some_concat ho.symm
            rw [hceq]
            simp
          have htlt : t < s.brk := by
            obtain ⟨hh, hlh⟩ := isChain_lookup hc.chain_ok t htmem
            have := tiles_mem_end_le ht t htmem hh hlh
            omega
          by_cases hat : a = t
          · subst hat
            refine ⟨⟨h.size, h.is_free, some s.brk⟩, ?_, rfl, rfl⟩
            simp only [growAppend, htl]
            rw [lookupH_setNext_self, lookupH_cons_other _ _ _ _ (by omega), hl]
            rfl
          · refine ⟨h, ?_, rfl, rfl⟩
            simp only [growAppend, htl]
            rw [lookupH_setNext_other _ _ _ _ hat,
              lookupH_cons_other _ _ _ _ (by omega)]
            exact hl
      obtain ⟨h1, hlg, hsz1, hfr1⟩ := hexists
      have hlkS2 : lookupH ({ growAppend s sz with
          mem := memcpy (growAppend s sz).mem q (a + headerSize) h.size } : State).heap
          (a + headerSize - headerSize) = some h1 := by
        show lookupH (growAppend s sz).heap (a + headerSize - headerSize) = some h1
        rw [hpa]
        exact hlg
      have hneS2 : (a + headerSize) + h1.size ≠ ({ growAppend s sz with
          mem := memcpy (growAppend s sz).mem q (a + headerSize) h.size } : State).brk := by
        show (a + headerSize) + h1.size ≠ s.brk + (headerSize + sz)
        rw [hsz1]
        omega
      have hfin := free_mark_lookup _ (a + headerSize) h1 hlkS2 hneS2
      rw [hpa] at hfin
      rw [e2]
      exact ⟨⟨h1.size, true, h1.next⟩, hfin, rfl, hsz1⟩

/-- Witness for C4 at the one-block state `sOne`: growing the size-20 block
to 30 returns the fresh handle 68 and copies the old payload. -/
theorem realloc_grow_spec_witness :
    (realloc true sOne (some 24) 30).2 = some 68 ∧
    (realloc true sOne (some 24) 30).1.mem (68 + 3) = sOne.mem (24 + 3) := by
  obtain ⟨_, hsucc⟩ := realloc_grow_spec true sOne 0 24 30 ⟨20, false, none⟩
    (wf_run s0 [Op.alloc true 20] (wf_init 0 mem0)) rfl rfl rfl (by decide) (by decide)
  obtain ⟨e1, _, e3, _⟩ := hsucc (malloc true sOne 30).1 68 rfl
  exact ⟨e1, e3 3 (by decide)⟩

/-- C5: after any sequence of allocate / zeroAllocate / resize / deallocate
calls from the empty state, head is none iff tail is none iff the chain is
empty; following next from head visits every live header exactly once, in
strictly increasing address order, and ends at tail, whose link is none. -/
theorem blocklist_invariant (B : Nat) (m : Nat → Nat) (ops : List Op) :
    ∃ c : List Nat,
      IsChain (run (init B m) ops).heap (run (init B m) ops).head c ∧
      ((run (init B m) ops).head = none ↔ (run (init B m) ops).tail = none) ∧
      ((run (init B m) ops).head = none ↔ c = []) ∧
      (∀ a, (∃ h, lookupH (run (init B m) ops).heap a = some h) ↔ a ∈ c) ∧
      c.Pairwise (· < ·) ∧
      (run (init B m) ops).tail = c.getLast? ∧
      (∀ a h, (run (init B m) ops).tail = some a →
        lookupH (run (init B m) ops).heap a = some h → h.next = none) := by
  obtain ⟨c, hc⟩ := wf_run (init B m) ops (wf_init B m)
  obtain ⟨base, ht⟩ := hc.tiles
  have hhd : (run (init B m) ops).head = none ↔ c = [] := by
    constructor
    · intro hh
      exact isChain_none (hh ▸ hc.chain_ok)
    · intro hh
      exact isChain_nil_inv (hh ▸ hc.chain_ok)
  refine ⟨c, hc.chain_ok, ?_, hhd, ?_, tiles_pairwise ht, hc.tail_ok, ?_⟩
  · rw [hhd, hc.tail_ok, getLast?_eq_none_iff]
  · intro a
    constructor
    · intro ⟨h, hl⟩
      exact hc.dom_sub a h hl
    · intro hmem
      exact isChain_lookup hc.chain_ok a hmem
  · intro a h htl hlk
    rw [hc.tail_ok] at htl
    obtain ⟨c', hceq⟩ := getLast?_some_concat htl
    subst hceq
    exact isChain_last_next hc.chain_ok h hlk

end Mal
